import Mathlib

/-!
Verification of the F0 (pitch) extractor `Dio` from
`espnet2/tts/feats_extract/dio.py`.

The module is a thin post-processing pipeline around two external pitch
estimation calls (DIO + Stonemask).  We embed the in-repository parts of the
pipeline faithfully over exact arithmetic (`ℚ` for signal values, `ℕ` for
frame counts), and model the external collaborators (the audio library's
frame counting, the linear interpolation primitive, and the framework's
batching helper) from the specification's description of their contracts.
External pitch estimation itself is kept abstract as an oracle parameter.
-/

namespace DioF0

/-- Modelled from the spec: the external audio-processing library's
frame-counting utility (`librosa.samples_to_frames`), which is not part of
this repository.  Per the spec it returns the frame count under the
convention `floor(num_samples / hop_length) + 1` after an internal
adjustment for the FFT size; the adjustment is the usual centering offset of
half the FFT window. -/
def samples_to_frames (n hop nfft : ℕ) : ℕ :=
  (n - nfft / 2) / hop + 1

/-- Configuration record stored by `Dio.__init__`.  The sample rate is the
integer value after the optional human-readable-string parsing. -/
structure Dio where
  fs : ℕ
  n_fft : ℕ
  hop_length : ℕ
  frame_period : ℚ
  f0min : Option ℕ
  f0max : Option ℕ
  use_token_averaged_f0 : Bool
  use_continuous_f0 : Bool
  use_log_f0 : Bool

/-- `Dio.__init__`: stores the configuration and the derived attribute
`frame_period = 1000 * hop_length / fs` (milliseconds per frame). -/
def Dio.make (fs n_fft hop_length : ℕ) (f0min f0max : Option ℕ)
    (use_token_averaged_f0 use_continuous_f0 use_log_f0 : Bool) : Dio :=
  { fs := fs
    n_fft := n_fft
    hop_length := hop_length
    frame_period := 1000 * (hop_length : ℚ) / (fs : ℚ)
    f0min := f0min
    f0max := f0max
    use_token_averaged_f0 := use_token_averaged_f0
    use_continuous_f0 := use_continuous_f0
    use_log_f0 := use_log_f0 }

/-- `Dio.output_size`: always 1. -/
def Dio.output_size (_ : Dio) : ℕ := 1

/-- The expected frame count computed at the top of `Dio._adjust_num_frames`:
the external library's count for `len(x)` samples, plus one more added by
this module (`num_frames += 1`). -/
def Dio.num_frames (c : Dio) (xLen : ℕ) : ℕ :=
  samples_to_frames xLen c.hop_length c.n_fft + 1

/-- `Dio._adjust_num_frames`: right-pad the F0 sequence with zeros when it is
shorter than the expected frame count, truncate it when longer. -/
def Dio.adjust_num_frames (c : Dio) (xLen : ℕ) (f0 : List ℚ) : List ℚ :=
  let numFrames := c.num_frames xLen
  if numFrames > f0.length then f0 ++ List.replicate (numFrames - f0.length) 0
  else if numFrames < f0.length then f0.take numFrames
  else f0

/-- Attribute names assigned on `self` in `Dio.__init__` (every assignment in
the constructor is unconditional, so every successfully constructed instance
has exactly these attributes). -/
def dioInitAttrs : List String :=
  ["fs", "n_fft", "hop_length", "frame_period", "f0min", "f0max",
   "use_token_averaged_f0", "use_continuous_f0", "use_log_f0"]

/-- Attribute names read from `self` by `Dio.get_parameters`. -/
def getParametersReads : List String :=
  ["fs", "n_fft", "n_shift", "f0min", "f0max"]

/-- `Dio.get_parameters`, modelling Python attribute lookup: the call
produces a result only if every attribute it reads exists on the instance;
a missing attribute raises `AttributeError`, modelled as `none`. -/
def Dio.get_parameters (_ : Dio) : Option (List String) :=
  if getParametersReads.all (fun a => dioInitAttrs.contains a) then
    some getParametersReads
  else none

/-! ### Basic lemmas about the frame-count correction -/

theorem adjust_num_frames_length (c : Dio) (xLen : ℕ) (f0 : List ℚ) :
    (c.adjust_num_frames xLen f0).length = c.num_frames xLen := by
  unfold Dio.adjust_num_frames
  by_cases h1 : c.num_frames xLen > f0.length
  · simp [h1]
    omega
  · by_cases h2 : c.num_frames xLen < f0.length
    · simp [h1, h2]
      omega
    · simp [h1, h2]
      omega

/-! ### Continuous F0 interpolation (`Dio._convert_to_continuous_f0`) -/

/-- Values of the voiced (non-zero) frames, in order: `f0[f0 != 0]`. -/
def voicedValues (f0 : List ℚ) : List ℚ :=
  f0.filter (fun x => decide (x ≠ 0))

/-- `start_f0 = f0[f0 != 0][0]`: the first voiced value. -/
def start_f0 (f0 : List ℚ) : ℚ := (voicedValues f0).headD 0

/-- `end_f0 = f0[f0 != 0][-1]`: the last voiced value. -/
def end_f0 (f0 : List ℚ) : ℚ := (voicedValues f0).getLastD 0

/-- `start_idx = np.where(f0 == start_f0)[0][0]`: first index holding the
first voiced value. -/
def start_idx (f0 : List ℚ) : ℕ :=
  f0.findIdx (fun x => decide (x = start_f0 f0))

/-- `end_idx = np.where(f0 == end_f0)[0][-1]`: last index holding the last
voiced value, obtained through the reversed list. -/
def end_idx (f0 : List ℚ) : ℕ :=
  f0.length - 1 - f0.reverse.findIdx (fun x => decide (x = end_f0 f0))

/-- The sequence after the two in-place fills `f0[:start_idx] = start_f0`
and then `f0[end_idx:] = end_f0` (the second assignment runs after, hence
wins on any overlap). -/
def filled (f0 : List ℚ) : List ℚ :=
  (List.range f0.length).map (fun i =>
    if end_idx f0 ≤ i then end_f0 f0
    else if i < start_idx f0 then start_f0 f0
    else f0.getD i 0)

/-- `nonzero_idxs` paired with their values after the fills: the control
points handed to the interpolation primitive. -/
def f0nodes (f0 : List ℚ) : List (ℕ × ℚ) :=
  (List.range f0.length).filterMap (fun i =>
    if (filled f0).getD i 0 ≠ 0 then some (i, (filled f0).getD i 0) else none)

/-- Modelled from the spec: the external piecewise-linear interpolation
primitive (`scipy.interpolate.interp1d`), which is not part of this
repository.  Given control points with strictly increasing integer
abscissae, it evaluates the piecewise-linear interpolant through them. -/
def interpAt : List (ℕ × ℚ) → ℚ → ℚ
  | [], _ => 0
  | [(_, y)], _ => y
  | (x1, y1) :: (x2, y2) :: rest, t =>
    if t ≤ (x1 : ℚ) then y1
    else if t ≤ (x2 : ℚ) then
      y1 + (y2 - y1) * (t - (x1 : ℚ)) / ((x2 : ℚ) - (x1 : ℚ))
    else interpAt ((x2, y2) :: rest) t

/-- `Dio._convert_to_continuous_f0`: fails (assertion) when every frame is
unvoiced; otherwise extends the first/last voiced values over the leading
and trailing unvoiced runs, then linearly interpolates through the voiced
control points at every integer frame position. -/
def convert_to_continuous_f0 (f0 : List ℚ) : Option (List ℚ) :=
  if ∀ x ∈ f0, x = 0 then none
  else some ((List.range f0.length).map (fun i : ℕ => interpAt (f0nodes f0) (i : ℚ)))

/-! ### Helper lemmas about lists -/

theorem getLastD_eq_headD_reverse {α : Type} (l : List α) (d : α) :
    l.getLastD d = l.reverse.headD d := by
  simp [List.getLastD_eq_getLast?, List.headD_eq_head?_getD, List.head?_reverse]

theorem getD_reverse (l : List ℚ) (j : ℕ) (h : j < l.length) :
    l.reverse.getD j 0 = l.getD (l.length - 1 - j) 0 := by
  have h1 : j < l.reverse.length := by simpa using h
  have h2 : l.length - 1 - j < l.length := by omega
  rw [List.getD_eq_getElem _ _ h1, List.getD_eq_getElem _ _ h2, List.getElem_reverse]

theorem headD_filter_eq (p : ℚ → Bool) (l : List ℚ) (h : l.filter p ≠ []) :
    (l.filter p).headD 0 = l.getD (l.findIdx p) 0 := by
  induction l with
  | nil => simp at h
  | cons a as ih =>
    by_cases hpa : p a
    · simp [List.filter_cons, hpa, List.findIdx_cons]
    · have hfil : (a :: as).filter p = as.filter p := by
        simp [List.filter_cons, hpa]
      rw [hfil] at h ⊢
      rw [ih h]
      simp [List.findIdx_cons, hpa]

theorem filterMap_eq_map_of_some {α β : Type} (g : α → Option β) (m : α → β)
    (xs : List α) (h : ∀ a ∈ xs, g a = some (m a)) : xs.filterMap g = xs.map m := by
  induction xs with
  | nil => rfl
  | cons a as ih =>
    rw [List.filterMap_cons, h a (List.mem_cons_self a as), List.map_cons,
      ih (fun b hb => h b (List.mem_cons.mpr (Or.inr hb)))]

theorem map_getD_range (l : List ℚ) :
    (List.range l.length).map (fun i => l.getD i 0) = l := by
  apply List.ext_getElem
  · simp
  · intro i h1 h2
    simp only [List.getElem_map, List.getElem_range]
    exact List.getD_eq_getElem l 0 h2

theorem pairwise_filterMap_keys {β : Type} (g : ℕ → Option (ℕ × β))
    (hg : ∀ i p, g i = some p → p.1 = i) :
    ∀ xs : List ℕ, xs.Pairwise (· < ·) →
      (xs.filterMap g).Pairwise (fun a b => a.1 < b.1) := by
  intro xs
  induction xs with
  | nil => intro _; simp
  | cons a as ih =>
    intro hp
    rw [List.pairwise_cons] at hp
    obtain ⟨ha, has⟩ := hp
    rw [List.filterMap_cons]
    cases hga : g a with
    | none => exact ih has
    | some pa =>
      rw [List.pairwise_cons]
      refine ⟨?_, ih has⟩
      intro q hq
      rw [List.mem_filterMap] at hq
      obtain ⟨j, hj, hgj⟩ := hq
      rw [hg a pa hga, hg j q hgj]
      exact ha j hj

/-! ### Characterisation of the fill indices -/

theorem voicedValues_ne_nil {f0 : List ℚ} (hnz : ∃ x ∈ f0, x ≠ 0) :
    voicedValues f0 ≠ [] := by
  obtain ⟨x, hx, hx0⟩ := hnz
  have hmem : x ∈ voicedValues f0 := by
    simp only [voicedValues, List.mem_filter]
    exact ⟨hx, by simpa using hx0⟩
  exact List.ne_nil_of_mem hmem

theorem start_f0_eq_getD_findIdx {f0 : List ℚ} (hnz : ∃ x ∈ f0, x ≠ 0) :
    start_f0 f0 = f0.getD (f0.findIdx (fun x => decide (x ≠ 0))) 0 :=
  headD_filter_eq _ f0 (voicedValues_ne_nil hnz)

/-- The roundabout computation of `start_idx` (first index holding the first
voiced value) coincides with the first voiced index: entries before it are
all zero and it holds the (non-zero) first voiced value. -/
theorem start_idx_spec (f0 : List ℚ) (hnz : ∃ x ∈ f0, x ≠ 0) :
    start_idx f0 < f0.length
    ∧ f0.getD (start_idx f0) 0 = start_f0 f0
    ∧ start_f0 f0 ≠ 0
    ∧ ∀ j, j < start_idx f0 → f0.getD j 0 = 0 := by
  have hex : ∃ x ∈ f0, (fun x => decide (x ≠ 0)) x = true := by
    obtain ⟨x, hx, hx0⟩ := hnz
    exact ⟨x, hx, by simpa using hx0⟩
  have hk : f0.findIdx (fun x => decide (x ≠ 0)) < f0.length :=
    List.findIdx_lt_length_of_exists hex
  have hsf : start_f0 f0 = f0.getD (f0.findIdx (fun x => decide (x ≠ 0))) 0 :=
    start_f0_eq_getD_findIdx hnz
  have hkval : f0.getD (f0.findIdx (fun x => decide (x ≠ 0))) 0 ≠ 0 := by
    have h1 := @List.findIdx_getElem _ (fun x => decide (x ≠ 0)) f0 hk
    rw [List.getD_eq_getElem _ _ hk]
    simpa using h1
  have hzero : ∀ j, j < f0.findIdx (fun x => decide (x ≠ 0)) → f0.getD j 0 = 0 := by
    intro j hj
    have hjl : j < f0.length := lt_trans hj hk
    have h1 := List.not_of_lt_findIdx hj
    rw [List.getD_eq_getElem _ _ hjl]
    simpa using h1
  have heq : start_idx f0 = f0.findIdx (fun x => decide (x ≠ 0)) := by
    unfold start_idx
    rw [List.findIdx_eq hk]
    constructor
    · simp only [decide_eq_true_eq]
      rw [hsf, List.getD_eq_getElem _ _ hk]
    · intro j hj
      have hjl : j < f0.length := lt_trans hj hk
      have h0 : f0[j] = 0 := by
        have h1 := hzero j hj
        rwa [List.getD_eq_getElem _ _ hjl] at h1
      simp only [decide_eq_false_iff_not]
      rw [h0, hsf]
      exact fun hcon => hkval hcon.symm
  refine ⟨heq ▸ hk, ?_, ?_, ?_⟩
  · rw [heq]
    exact hsf.symm
  · rw [hsf]
    exact hkval
  · intro j hj
    rw [heq] at hj
    exact hzero j hj

theorem end_f0_eq_start_f0_reverse (f0 : List ℚ) :
    end_f0 f0 = start_f0 f0.reverse := by
  unfold end_f0 start_f0 voicedValues
  rw [List.filter_reverse, getLastD_eq_headD_reverse]

/-- The roundabout computation of `end_idx` (last index holding the last
voiced value) coincides with the last voiced index, and it is not before
`start_idx`. -/
theorem end_idx_spec (f0 : List ℚ) (hnz : ∃ x ∈ f0, x ≠ 0) :
    end_idx f0 < f0.length
    ∧ f0.getD (end_idx f0) 0 = end_f0 f0
    ∧ end_f0 f0 ≠ 0
    ∧ (∀ j, end_idx f0 < j → j < f0.length → f0.getD j 0 = 0)
    ∧ start_idx f0 ≤ end_idx f0 := by
  have hnzr : ∃ x ∈ f0.reverse, x ≠ 0 := by
    obtain ⟨x, hx, hx0⟩ := hnz
    exact ⟨x, by simpa using hx, hx0⟩
  obtain ⟨hklt, hkval, hkne, hkzero⟩ := start_idx_spec f0.reverse hnzr
  have hidx : end_idx f0 = f0.length - 1 - start_idx f0.reverse := by
    unfold end_idx start_idx
    rw [end_f0_eq_start_f0_reverse]
  have hn : 0 < f0.length := by
    obtain ⟨x, hx, _⟩ := hnz
    exact List.length_pos.mpr (List.ne_nil_of_mem hx)
  rw [List.length_reverse] at hklt
  have helt : end_idx f0 < f0.length := by omega
  have heval : f0.getD (end_idx f0) 0 = end_f0 f0 := by
    rw [hidx]
    have h1 := getD_reverse f0 (start_idx f0.reverse) hklt
    rw [hkval, ← end_f0_eq_start_f0_reverse] at h1
    exact h1.symm
  have hzero : ∀ j, end_idx f0 < j → j < f0.length → f0.getD j 0 = 0 := by
    intro j hj hjl
    have hj' : f0.length - 1 - j < start_idx f0.reverse := by omega
    have h1 := hkzero _ hj'
    rw [getD_reverse f0 _ (by omega)] at h1
    have hcov : f0.length - 1 - (f0.length - 1 - j) = j := by omega
    rwa [hcov] at h1
  refine ⟨helt, heval, ?_, hzero, ?_⟩
  · rw [end_f0_eq_start_f0_reverse]
    exact hkne
  · by_contra hcon
    push_neg at hcon
    obtain ⟨hslt, hsval, hsne, _⟩ := start_idx_spec f0 hnz
    have h0 : f0.getD (start_idx f0) 0 = 0 := hzero _ hcon hslt
    rw [hsval] at h0
    exact hsne h0

/-! ### Lemmas about the filled sequence and its control points -/

theorem filled_length (f0 : List ℚ) : (filled f0).length = f0.length := by
  simp [filled]

theorem filled_getD (f0 : List ℚ) (i : ℕ) (h : i < f0.length) :
    (filled f0).getD i 0
      = if end_idx f0 ≤ i then end_f0 f0
        else if i < start_idx f0 then start_f0 f0
        else f0.getD i 0 := by
  have h' : i < (filled f0).length := by rw [filled_length]; exact h
  rw [List.getD_eq_getElem _ _ h']
  unfold filled
  simp

theorem mem_f0nodes {f0 : List ℚ} {i : ℕ} {v : ℚ} :
    (i, v) ∈ f0nodes f0 ↔ i < f0.length ∧ (filled f0).getD i 0 = v ∧ v ≠ 0 := by
  unfold f0nodes
  rw [List.mem_filterMap]
  constructor
  · rintro ⟨j, hj, hfj⟩
    rw [List.mem_range] at hj
    split at hfj
    · simp only [Option.some.injEq, Prod.mk.injEq] at hfj
      obtain ⟨rfl, rfl⟩ := hfj
      exact ⟨hj, rfl, by assumption⟩
    · simp at hfj
  · rintro ⟨hi, hv, hvne⟩
    refine ⟨i, List.mem_range.mpr hi, ?_⟩
    rw [hv, if_pos hvne]

theorem f0nodes_sorted (f0 : List ℚ) :
    (f0nodes f0).Pairwise (fun a b => a.1 < b.1) := by
  unfold f0nodes
  apply pairwise_filterMap_keys
  · intro i p hp
    split at hp
    · injection hp with h
      rw [← h]
    · simp at hp
  · exact List.pairwise_lt_range f0.length

theorem f0nodes_pos {f0 : List ℚ} (hnn : ∀ x ∈ f0, 0 ≤ x)
    (hnz : ∃ x ∈ f0, x ≠ 0) : ∀ p ∈ f0nodes f0, 0 < p.2 := by
  rintro ⟨i, v⟩ hp
  rw [mem_f0nodes] at hp
  obtain ⟨hi, hv, hvne⟩ := hp
  obtain ⟨hslt, hsval, hsne, _⟩ := start_idx_spec f0 hnz
  obtain ⟨helt, heval, hene, _, _⟩ := end_idx_spec f0 hnz
  have hnnD : ∀ j, j < f0.length → 0 ≤ f0.getD j 0 := by
    intro j hj
    rw [List.getD_eq_getElem _ _ hj]
    exact hnn _ (List.getElem_mem hj)
  have hv0 : 0 ≤ v := by
    rw [← hv, filled_getD f0 i hi]
    split
    · rw [← heval]
      exact hnnD _ helt
    · split
      · rw [← hsval]
        exact hnnD _ hslt
      · exact hnnD _ hi
  exact lt_of_le_of_ne hv0 (Ne.symm hvne)

theorem f0nodes_ne_nil {f0 : List ℚ} (hnz : ∃ x ∈ f0, x ≠ 0) :
    f0nodes f0 ≠ [] := by
  obtain ⟨hslt, hsval, hsne, _⟩ := start_idx_spec f0 hnz
  obtain ⟨helt, heval, hene, _, hse⟩ := end_idx_spec f0 hnz
  have hv : (filled f0).getD (start_idx f0) 0 ≠ 0 := by
    rw [filled_getD f0 _ hslt]
    split
    · exact hene
    · split
      · omega
      · rw [hsval]
        exact hsne
  exact List.ne_nil_of_mem (mem_f0nodes.mpr ⟨hslt, rfl, hv⟩)

/-! ### Lemmas about the interpolation primitive -/

theorem interpAt_node : ∀ nodes : List (ℕ × ℚ),
    nodes.Pairwise (fun a b => a.1 < b.1) → ∀ (x : ℕ) (y : ℚ),
    (x, y) ∈ nodes → interpAt nodes (x : ℚ) = y := by
  intro nodes
  induction nodes with
  | nil =>
    intro _ x y hm
    cases hm
  | cons a tail ih =>
    intro hs x y hm
    rw [List.pairwise_cons] at hs
    obtain ⟨ha, htail⟩ := hs
    cases tail with
    | nil =>
      obtain ⟨a1, a2⟩ := a
      have h1 := List.mem_singleton.mp hm
      obtain ⟨rfl, rfl⟩ := Prod.mk.injEq .. |>.mp h1
      simp [interpAt]
    | cons b rest =>
      obtain ⟨a1, a2⟩ := a
      obtain ⟨b1, b2⟩ := b
      have hab : a1 < b1 := ha (b1, b2) (List.mem_cons_self ..)
      rcases List.mem_cons.mp hm with h1 | hm2
      · obtain ⟨rfl, rfl⟩ := Prod.mk.injEq .. |>.mp h1
        simp only [interpAt]
        rw [if_pos le_rfl]
      · rcases List.mem_cons.mp hm2 with h2 | hm3
        · obtain ⟨rfl, rfl⟩ := Prod.mk.injEq .. |>.mp h2
          have habq : (a1 : ℚ) < (x : ℚ) := by exact_mod_cast hab
          simp only [interpAt]
          rw [if_neg (not_le.mpr habq), if_pos le_rfl,
            mul_div_assoc, div_self (sub_ne_zero_of_ne habq.ne'), mul_one]
          ring
        · have hb1x : b1 < x := by
            rw [List.pairwise_cons] at htail
            exact htail.1 (x, y) hm3
          have hax : a1 < x := lt_trans hab hb1x
          simp only [interpAt]
          rw [if_neg (not_le.mpr (by exact_mod_cast hax)),
            if_neg (not_le.mpr (by exact_mod_cast hb1x))]
          exact ih htail x y hm2

theorem interpAt_pos : ∀ nodes : List (ℕ × ℚ),
    nodes.Pairwise (fun a b => a.1 < b.1) → (∀ p ∈ nodes, 0 < p.2) →
    nodes ≠ [] → ∀ t : ℚ, 0 < interpAt nodes t := by
  intro nodes
  induction nodes with
  | nil =>
    intro _ _ h
    exact absurd rfl h
  | cons a tail ih =>
    intro hs hv _ t
    rw [List.pairwise_cons] at hs
    cases tail with
    | nil =>
      obtain ⟨a1, a2⟩ := a
      have h1 : interpAt [(a1, a2)] t = a2 := by simp [interpAt]
      rw [h1]
      exact hv (a1, a2) (List.mem_singleton_self _)
    | cons b rest =>
      obtain ⟨a1, a2⟩ := a
      obtain ⟨b1, b2⟩ := b
      have ha2 : 0 < a2 := hv _ (List.mem_cons_self ..)
      have hb2 : 0 < b2 := hv _ (List.mem_cons.mpr (Or.inr (List.mem_cons_self ..)))
      have hab : a1 < b1 := hs.1 (b1, b2) (List.mem_cons_self ..)
      have habq : (a1 : ℚ) < (b1 : ℚ) := by exact_mod_cast hab
      simp only [interpAt]
      split
      · exact ha2
      · split
        · rename_i h1 h2
          push_neg at h1
          have hne : (b1 : ℚ) - (a1 : ℚ) ≠ 0 := sub_ne_zero_of_ne habq.ne'
          have key : a2 + (b2 - a2) * (t - (a1 : ℚ)) / ((b1 : ℚ) - (a1 : ℚ))
              = (a2 * ((b1 : ℚ) - t) + b2 * (t - (a1 : ℚ))) / ((b1 : ℚ) - (a1 : ℚ)) := by
            field_simp
            ring
          rw [key]
          apply div_pos
          · nlinarith [mul_nonneg ha2.le (sub_nonneg.mpr h2),
              mul_pos hb2 (sub_pos.mpr h1)]
          · linarith
        · exact ih hs.2 (fun p hp => hv p (List.mem_cons.mpr (Or.inr hp)))
            (List.cons_ne_nil (b1, b2) rest) t

/-! ### Lemmas about the conversion itself -/

theorem convert_eq_none_iff (f0 : List ℚ) :
    convert_to_continuous_f0 f0 = none ↔ ∀ x ∈ f0, x = 0 := by
  unfold convert_to_continuous_f0
  split
  · rename_i h
    exact iff_of_true rfl h
  · rename_i h
    exact iff_of_false (by simp) h

theorem convert_some_getD {f0 out : List ℚ}
    (h : convert_to_continuous_f0 f0 = some out) :
    out.length = f0.length
    ∧ ∀ i, i < f0.length → out.getD i 0 = interpAt (f0nodes f0) (i : ℚ) := by
  unfold convert_to_continuous_f0 at h
  split at h
  · simp at h
  · simp only [Option.some.injEq] at h
    subst h
    constructor
    · rw [List.length_map, List.length_range]
    · intro i hi
      have h' : i < ((List.range f0.length).map
          fun i : ℕ => interpAt (f0nodes f0) (i : ℚ)).length := by
        rw [List.length_map, List.length_range]
        exact hi
      rw [List.getD_eq_getElem _ _ h', List.getElem_map, List.getElem_range]

theorem convert_some_nz {f0 out : List ℚ}
    (h : convert_to_continuous_f0 f0 = some out) : ∃ x ∈ f0, x ≠ 0 := by
  unfold convert_to_continuous_f0 at h
  split at h
  · simp at h
  · rename_i hc
    push_neg at hc
    exact hc

/-- On a sequence with no unvoiced frame, the conversion is the identity:
the fills are vacuous and the interpolant reproduces every control point. -/
theorem convert_all_nonzero (l : List ℚ) (hne : l ≠ []) (hv : ∀ x ∈ l, x ≠ 0) :
    convert_to_continuous_f0 l = some l := by
  have hnz : ∃ x ∈ l, x ≠ 0 := by
    obtain ⟨a, as, rfl⟩ := List.exists_cons_of_ne_nil hne
    exact ⟨a, List.mem_cons_self a as, hv a (List.mem_cons_self a as)⟩
  have hvoiced : voicedValues l = l := by
    unfold voicedValues
    rw [List.filter_eq_self]
    intro a ha
    simpa using hv a ha
  have hs0 : start_idx l = 0 := by
    unfold start_idx start_f0
    rw [hvoiced]
    obtain ⟨a, as, rfl⟩ := List.exists_cons_of_ne_nil hne
    rw [List.findIdx_cons]
    simp
  have hrev : l.reverse ≠ [] := by simpa using hne
  have hbval : end_f0 l = l.reverse.headD 0 := by
    unfold end_f0
    rw [hvoiced, getLastD_eq_headD_reverse]
  have hend : l.reverse.findIdx (fun x => decide (x = end_f0 l)) = 0 := by
    obtain ⟨b, bs, hb⟩ := List.exists_cons_of_ne_nil hrev
    rw [hb]
    rw [hb] at hbval
    simp only [List.headD_cons] at hbval
    rw [List.findIdx_cons, hbval]
    simp
  have he : end_idx l = l.length - 1 := by
    unfold end_idx
    rw [hend]
    omega
  have hlast : end_f0 l = l.getD (l.length - 1) 0 := by
    have h0 : (0 : ℕ) < l.length := List.length_pos.mpr hne
    have hh : l.reverse.headD 0 = l.reverse.getD 0 0 := by
      obtain ⟨b, bs, hb⟩ := List.exists_cons_of_ne_nil hrev
      rw [hb]
      rfl
    rw [hbval, hh, getD_reverse l 0 h0]
    simp
  have hfilled : filled l = l := by
    apply List.ext_getElem
    · exact filled_length l
    · intro i h1 h2
      rw [← List.getD_eq_getElem (filled l) 0 h1, ← List.getD_eq_getElem l 0 h2,
        filled_getD l i h2, hs0, he]
      by_cases hi : l.length - 1 ≤ i
      · rw [if_pos hi]
        have hieq : i = l.length - 1 := by omega
        rw [hlast, hieq]
      · rw [if_neg hi, if_neg (by omega)]
  have hnodes : f0nodes l = (List.range l.length).map (fun i : ℕ => (i, l.getD i 0)) := by
    unfold f0nodes
    rw [hfilled]
    apply filterMap_eq_map_of_some
    intro i hi
    rw [List.mem_range] at hi
    have hne0 : l.getD i 0 ≠ 0 := by
      rw [List.getD_eq_getElem _ _ hi]
      exact hv _ (List.getElem_mem hi)
    rw [if_pos hne0]
  have hcond : ¬ ∀ x ∈ l, x = 0 := by
    obtain ⟨x, hx, hx0⟩ := hnz
    exact fun h => hx0 (h x hx)
  unfold convert_to_continuous_f0
  rw [if_neg hcond]
  have hcongr : ∀ i ∈ List.range l.length,
      interpAt (f0nodes l) (i : ℚ) = l.getD i 0 := by
    intro i hi
    rw [List.mem_range] at hi
    apply interpAt_node _ (f0nodes_sorted l)
    rw [hnodes]
    exact List.mem_map.mpr ⟨i, List.mem_range.mpr hi, rfl⟩
  rw [List.map_congr_left hcongr, map_getD_range]

/-- C3.  Continuous-F0 interpolation aborts exactly when every frame is
unvoiced; on an F0 sequence (non-negative values) with at least one voiced
frame it produces a sequence of the same length with no zero value, whose
leading and trailing unvoiced runs are filled with the first/last voiced
value and whose voiced frames are preserved, interior gaps being filled by
the piecewise-linear interpolant through the voiced control points. -/
theorem dio_convert_continuous (f0 : List ℚ) (hnn : ∀ x ∈ f0, 0 ≤ x) :
    (convert_to_continuous_f0 f0 = none ↔ ∀ x ∈ f0, x = 0)
    ∧ ∀ out, convert_to_continuous_f0 f0 = some out →
        out.length = f0.length
        ∧ (∀ y ∈ out, y ≠ 0)
        ∧ (∀ i, i < start_idx f0 → out.getD i 0 = start_f0 f0)
        ∧ (∀ i, end_idx f0 ≤ i → i < f0.length → out.getD i 0 = end_f0 f0)
        ∧ (∀ i, i < f0.length → f0.getD i 0 ≠ 0 → out.getD i 0 = f0.getD i 0) := by
  refine ⟨convert_eq_none_iff f0, ?_⟩
  intro out hout
  have hnz := convert_some_nz hout
  obtain ⟨hlen, hget⟩ := convert_some_getD hout
  have hsort := f0nodes_sorted f0
  have hpos := f0nodes_pos hnn hnz
  have hnen := f0nodes_ne_nil hnz
  obtain ⟨hslt, hsval, hsne, hszero⟩ := start_idx_spec f0 hnz
  obtain ⟨helt, heval, hene, hezero, hse⟩ := end_idx_spec f0 hnz
  refine ⟨hlen, ?_, ?_, ?_, ?_⟩
  · intro y hy
    obtain ⟨i, hi, hiy⟩ := List.mem_iff_getElem.mp hy
    have hif : i < f0.length := by omega
    have hyi : y = out.getD i 0 := by
      rw [List.getD_eq_getElem _ _ hi, hiy]
    rw [hyi, hget i hif]
    exact ne_of_gt (interpAt_pos _ hsort hpos hnen _)
  · intro i hilt
    have hif : i < f0.length := lt_trans hilt hslt
    rw [hget i hif]
    apply interpAt_node _ hsort
    rw [mem_f0nodes]
    refine ⟨hif, ?_, hsne⟩
    rw [filled_getD f0 i hif, if_neg (by omega), if_pos hilt]
  · intro i hile hif
    rw [hget i hif]
    apply interpAt_node _ hsort
    rw [mem_f0nodes]
    refine ⟨hif, ?_, hene⟩
    rw [filled_getD f0 i hif, if_pos hile]
  · intro i hif hne0
    rw [hget i hif]
    apply interpAt_node _ hsort
    rw [mem_f0nodes]
    refine ⟨hif, ?_, hne0⟩
    rw [filled_getD f0 i hif]
    by_cases hei : end_idx f0 ≤ i
    · rw [if_pos hei]
      have hieq : i = end_idx f0 := by
        by_contra hne2
        exact hne0 (hezero i (by omega) hif)
      rw [hieq, heval]
    · rw [if_neg hei]
      by_cases his : i < start_idx f0
      · exact absurd (hszero i his) hne0
      · rw [if_neg his]

theorem dio_convert_continuous_witness :
    (∀ x ∈ ([0, 2, 0, 4, 0] : List ℚ), 0 ≤ x)
    ∧ ((convert_to_continuous_f0 [0, 2, 0, 4, 0] = none
          ↔ ∀ x ∈ ([0, 2, 0, 4, 0] : List ℚ), x = 0)
        ∧ ∀ out, convert_to_continuous_f0 [0, 2, 0, 4, 0] = some out →
            out.length = ([0, 2, 0, 4, 0] : List ℚ).length
            ∧ (∀ y ∈ out, y ≠ 0)
            ∧ (∀ i, i < start_idx [0, 2, 0, 4, 0] →
                out.getD i 0 = start_f0 [0, 2, 0, 4, 0])
            ∧ (∀ i, end_idx [0, 2, 0, 4, 0] ≤ i →
                i < ([0, 2, 0, 4, 0] : List ℚ).length →
                out.getD i 0 = end_f0 [0, 2, 0, 4, 0])
            ∧ (∀ i, i < ([0, 2, 0, 4, 0] : List ℚ).length →
                ([0, 2, 0, 4, 0] : List ℚ).getD i 0 ≠ 0 →
                out.getD i 0 = ([0, 2, 0, 4, 0] : List ℚ).getD i 0)) :=
  ⟨by norm_num, dio_convert_continuous [0, 2, 0, 4, 0] (by norm_num)⟩

/-- C4.  Continuous-F0 interpolation is idempotent: on an F0 sequence with
at least one voiced frame, applying the conversion to its own output
returns that output unchanged. -/
theorem dio_convert_idempotent (f0 out : List ℚ) (hnn : ∀ x ∈ f0, 0 ≤ x)
    (h : convert_to_continuous_f0 f0 = some out) :
    convert_to_continuous_f0 out = some out := by
  have hnz := convert_some_nz h
  obtain ⟨hlen, hget⟩ := convert_some_getD h
  have hsort := f0nodes_sorted f0
  have hposn := f0nodes_pos hnn hnz
  have hnen := f0nodes_ne_nil hnz
  have hvout : ∀ y ∈ out, y ≠ 0 := by
    intro y hy
    obtain ⟨i, hi, hiy⟩ := List.mem_iff_getElem.mp hy
    have hif : i < f0.length := by omega
    have hyi : y = out.getD i 0 := by
      rw [List.getD_eq_getElem _ _ hi, hiy]
    rw [hyi, hget i hif]
    exact ne_of_gt (interpAt_pos _ hsort hposn hnen _)
  have hone : out ≠ [] := by
    obtain ⟨x, hx, _⟩ := hnz
    intro ho
    rw [ho] at hlen
    have : f0.length = 0 := hlen.symm
    rw [List.length_eq_zero] at this
    subst this
    cases hx
  exact convert_all_nonzero out hone hvout

theorem dio_convert_idempotent_witness :
    (∀ x ∈ ([0, 2, 0, 4, 0] : List ℚ), 0 ≤ x)
    ∧ convert_to_continuous_f0 [0, 2, 0, 4, 0] = some [2, 2, 3, 4, 4]
    ∧ convert_to_continuous_f0 [2, 2, 3, 4, 4] = some [2, 2, 3, 4, 4] := by
  have heval : convert_to_continuous_f0 [0, 2, 0, 4, 0] = some [2, 2, 3, 4, 4] := by
    norm_num [convert_to_continuous_f0, f0nodes, filled, start_idx, end_idx, start_f0,
      end_f0, voicedValues, interpAt, List.range_succ, List.findIdx_cons]
  exact ⟨by norm_num, heval,
    dio_convert_idempotent [0, 2, 0, 4, 0] [2, 2, 3, 4, 4] (by norm_num) heval⟩

/-! ### Log transform (the `use_log_f0` branch of `Dio._calculate_f0`) -/

/-- The log-transform step of `Dio._calculate_f0`: every non-zero entry is
replaced by its image under the logarithm function, zero entries are left
untouched (`nonzero_idxs = np.where(f0 != 0)[0]; f0[nonzero_idxs] =
np.log(f0[nonzero_idxs])`).  Stated generically over the value field so it
can be used both with the real natural logarithm and inside the rational
pipeline with an abstract logarithm oracle. -/
def logTransformWith {α : Type} [Zero α] [DecidableEq α] (lg : α → α)
    (l : List α) : List α :=
  l.map (fun x => if x = 0 then x else lg x)

/-- C5.  Log transform: on an F0 sequence (non-negative entries), every
strictly-positive entry x is replaced by its natural logarithm ln x, every
zero entry is left exactly 0, and the length is preserved (so no other
entries are changed). -/
theorem dio_log_transform (l : List ℝ) (hnn : ∀ x ∈ l, 0 ≤ x) :
    (logTransformWith Real.log l).length = l.length
    ∧ ∀ i, i < l.length →
        (0 < l.getD i 0 →
          (logTransformWith Real.log l).getD i 0 = Real.log (l.getD i 0))
        ∧ (l.getD i 0 = 0 → (logTransformWith Real.log l).getD i 0 = 0) := by
  constructor
  · simp [logTransformWith]
  · intro i hi
    have hi' : i < (logTransformWith Real.log l).length := by
      simpa [logTransformWith] using hi
    have hgd : (logTransformWith Real.log l).getD i 0
        = if l[i] = 0 then l[i] else Real.log l[i] := by
      rw [List.getD_eq_getElem _ _ hi']
      simp [logTransformWith]
    constructor
    · intro hpos
      rw [List.getD_eq_getElem _ _ hi] at hpos ⊢
      rw [hgd, if_neg (ne_of_gt hpos)]
    · intro hz
      rw [List.getD_eq_getElem _ _ hi] at hz
      rw [hgd, if_pos hz, hz]

theorem dio_log_transform_witness :
    (∀ x ∈ ([2, 0] : List ℝ), 0 ≤ x)
    ∧ ((logTransformWith Real.log [2, 0]).length = ([2, 0] : List ℝ).length
      ∧ ∀ i, i < ([2, 0] : List ℝ).length →
          (0 < ([2, 0] : List ℝ).getD i 0 →
            (logTransformWith Real.log [2, 0]).getD i 0
              = Real.log (([2, 0] : List ℝ).getD i 0))
          ∧ (([2, 0] : List ℝ).getD i 0 = 0 →
            (logTransformWith Real.log [2, 0]).getD i 0 = 0)) :=
  ⟨by norm_num, dio_log_transform [2, 0] (by norm_num)⟩

/-! ### Duration averaging (`Dio._average_by_duration`) -/

/-- Mean of the non-zero entries of one run, 0.0 when the run has none:
the body `x[start:end].masked_select(x[start:end].ne(0.0)).mean(dim=0) if
len(...) != 0 else 0.0` of the comprehension. -/
def meanNonzero (seg : List ℚ) : ℚ :=
  let nz := seg.filter (fun v => decide (v ≠ 0))
  if nz.isEmpty then 0 else nz.sum / (nz.length : ℚ)

/-- `Dio._average_by_duration`: asserts `d.sum() == len(x)`, forms the
zero-prefixed cumulative sums of the durations, and averages the non-zero
entries of each consecutive slice. -/
def average_by_duration (x : List ℚ) (d : List ℕ) : Option (List ℚ) :=
  if d.sum = x.length then
    let c := d.scanl (fun u v => u + v) 0
    some ((c.zip c.tail).map (fun p => meanNonzero ((x.drop p.1).take (p.2 - p.1))))
  else none

theorem scanl_getD (d : List ℕ) (a i : ℕ) (hi : i < d.length + 1) :
    (d.scanl (fun u v => u + v) a).getD i 0 = a + (d.take i).sum := by
  induction d generalizing a i with
  | nil =>
    have h0 : i = 0 := by
      simp only [List.length_nil] at hi
      omega
    subst h0
    simp
  | cons y ys ih =>
    rw [List.scanl_cons, List.singleton_append]
    cases i with
    | zero => simp
    | succ j =>
      rw [List.getD_cons_succ, ih (a + y) j (by simpa using hi)]
      simp only [List.take_succ_cons, List.sum_cons]
      omega

theorem sum_take_succ_nat (d : List ℕ) (i : ℕ) (hi : i < d.length) :
    (d.take (i + 1)).sum = (d.take i).sum + d.getD i 0 := by
  induction d generalizing i with
  | nil => simp at hi
  | cons a as ih =>
    cases i with
    | zero => simp
    | succ j =>
      simp only [List.take_succ_cons, List.sum_cons, List.getD_cons_succ]
      rw [ih j (by simpa using hi)]
      omega

/-- C6.  Duration averaging: the call aborts exactly when the durations do
not sum to the contour length; otherwise the contour is partitioned into
consecutive runs of the given lengths and the i-th output token is the
arithmetic mean of the non-zero entries of the i-th run (exactly 0 for a
fully-unvoiced run), one value per token. -/
theorem dio_average_by_duration (x : List ℚ) (d : List ℕ) :
    (average_by_duration x d = none ↔ d.sum ≠ x.length)
    ∧ ∀ out, average_by_duration x d = some out →
        out.length = d.length
        ∧ ∀ i, i < d.length →
            out.getD i 0
              = meanNonzero ((x.drop ((d.take i).sum)).take (d.getD i 0)) := by
  constructor
  · unfold average_by_duration
    split
    · rename_i h
      exact iff_of_false (by simp) (not_not_intro h)
    · rename_i h
      exact iff_of_true rfl h
  · intro out hout
    unfold average_by_duration at hout
    split at hout
    case isFalse => simp at hout
    case isTrue h =>
      simp only [Option.some.injEq] at hout
      subst hout
      have hcl : (d.scanl (fun u v => u + v) 0).length = d.length + 1 :=
        List.length_scanl 0 d
      have hctl : (d.scanl (fun u v => u + v) 0).tail.length = d.length := by
        rw [List.length_tail, hcl]
        omega
      have hzl : ((d.scanl (fun u v => u + v) 0).zip
          (d.scanl (fun u v => u + v) 0).tail).length = d.length := by
        rw [List.length_zip, hcl, hctl]
        omega
      constructor
      · rw [List.length_map, hzl]
      · intro i hi
        have him : i < (((d.scanl (fun u v => u + v) 0).zip
            (d.scanl (fun u v => u + v) 0).tail).map
              (fun p => meanNonzero ((x.drop p.1).take (p.2 - p.1)))).length := by
          rw [List.length_map, hzl]
          exact hi
        rw [List.getD_eq_getElem _ _ him, List.getElem_map, List.getElem_zip]
        have hi1 : i < (d.scanl (fun u v => u + v) 0).length := by
          rw [hcl]
          omega
        have hci : (d.scanl (fun u v => u + v) 0)[i] = (d.take i).sum := by
          rw [← List.getD_eq_getElem _ 0 hi1, scanl_getD d 0 i (by omega)]
          omega
        have hi2 : i + 1 < (d.scanl (fun u v => u + v) 0).length := by
          rw [hcl]
          omega
        have hti : i < (d.scanl (fun u v => u + v) 0).tail.length := by
          rw [hctl]
          exact hi
        have hcsi : (d.scanl (fun u v => u + v) 0).tail[i]
            = (d.take (i + 1)).sum := by
          rw [List.getElem_tail, ← List.getD_eq_getElem _ 0 hi2,
            scanl_getD d 0 (i + 1) (by omega)]
          omega
        simp only [hci, hcsi]
        rw [sum_take_succ_nat d i hi]
        have harith : (d.take i).sum + d.getD i 0 - (d.take i).sum = d.getD i 0 := by
          omega
        rw [harith]

theorem dio_average_by_duration_witness :
    average_by_duration [1, 0, 3] [2, 1] = some [1, 3]
    ∧ (([1, 3] : List ℚ).length = ([2, 1] : List ℕ).length
      ∧ ∀ i, i < ([2, 1] : List ℕ).length →
          ([1, 3] : List ℚ).getD i 0
            = meanNonzero ((([1, 0, 3] : List ℚ).drop
                ((([2, 1] : List ℕ).take i).sum)).take (([2, 1] : List ℕ).getD i 0))) := by
  have heval : average_by_duration [1, 0, 3] [2, 1] = some [1, 3] := by
    norm_num [average_by_duration, meanNonzero, List.scanl]
  exact ⟨heval, (dio_average_by_duration [1, 0, 3] [2, 1]).2 [1, 3] heval⟩

/-! ### Per-utterance pipeline and batched forward pass -/

/-- `Dio._calculate_f0`.  The external DIO + Stonemask estimation is kept
abstract as the oracle `dioStonemask` (it is provided by an external
signal-processing library), as is the logarithm `lg` used by the log step;
the in-repository post-processing (frame-count correction, optional
continuous interpolation, optional log transform) is applied around it. -/
def Dio.calculate_f0 (c : Dio) (dioStonemask : List ℚ → List ℚ) (lg : ℚ → ℚ)
    (x : List ℚ) : Option (List ℚ) :=
  let f0 := dioStonemask x
  let f1 := c.adjust_num_frames x.length f0
  match (if c.use_continuous_f0 then convert_to_continuous_f0 f1 else some f1) with
  | none => none
  | some f2 => some (if c.use_log_f0 then logTransformWith lg f2 else f2)

/-- Sequential evaluation of a fallible function over a list, failing at the
first failure (a Python list comprehension whose body may raise). -/
def mapOrFail {α β : Type} (f : α → Option β) : List α → Option (List β)
  | [] => some []
  | a :: as =>
    match f a, mapOrFail f as with
    | some b, some bs => some (b :: bs)
    | _, _ => none

/-- Length of the longest sequence in a batch. -/
def maxLen {α : Type} (xs : List (List α)) : ℕ :=
  (xs.map List.length).foldr max 0

/-- Modelled from the spec: the surrounding training framework's batching
helper `pad_list` (from `espnet.nets.pytorch_backend.nets_utils`, not under
the sources being verified), which right-pads each variable-length sequence
with the pad value to the maximum length in the batch, forming a
rectangular collection. -/
def pad_list (xs : List (List ℚ)) (v : ℚ) : List (List ℚ) :=
  xs.map (fun s => s ++ List.replicate (maxLen xs - s.length) v)

/-- `Dio.forward`: computes per-utterance pitch, optionally averages each
contour over the caller-supplied durations (iterating `durations`
unconditionally in that branch, so a missing `durations` fails), pads the
batch with 0.0 and reports valid lengths (the per-utterance frame counts,
or the caller-supplied `durations_lengths` when averaging). -/
def Dio.forward (c : Dio) (dioStonemask : List ℚ → List ℚ) (lg : ℚ → ℚ)
    (input : List (List ℚ)) (durations : Option (List (List ℕ)))
    (durations_lengths : Option (List ℕ)) :
    Option (List (List ℚ) × Option (List ℕ)) :=
  match mapOrFail (c.calculate_f0 dioStonemask lg) input with
  | none => none
  | some pitch =>
    if c.use_token_averaged_f0 then
      match durations with
      | none => none
      | some ds =>
        match mapOrFail (fun pd => average_by_duration pd.1 pd.2) (pitch.zip ds) with
        | none => none
        | some ps => some (pad_list ps 0, durations_lengths)
    else
      some (pad_list pitch 0, some (pitch.map List.length))

theorem le_maxLen {xs : List (List ℚ)} {s : List ℚ} (h : s ∈ xs) :
    s.length ≤ maxLen xs := by
  unfold maxLen
  induction xs with
  | nil => cases h
  | cons a as ih =>
    rcases List.mem_cons.mp h with h1 | h2
    · subst h1
      simp only [List.map_cons, List.foldr_cons]
      exact le_max_left _ _
    · simp only [List.map_cons, List.foldr_cons]
      exact le_trans (ih h2) (le_max_right _ _)

theorem pad_list_getD (xs : List (List ℚ)) (v : ℚ) (i : ℕ) (h : i < xs.length) :
    (pad_list xs v).getD i []
      = xs.getD i [] ++ List.replicate (maxLen xs - (xs.getD i []).length) v := by
  have h' : i < (pad_list xs v).length := by
    simpa [pad_list] using h
  rw [List.getD_eq_getElem _ _ h']
  unfold pad_list
  rw [List.getElem_map, List.getD_eq_getElem _ _ h]

theorem pad_list_row_length (xs : List (List ℚ)) (v : ℚ) :
    ∀ row ∈ pad_list xs v, row.length = maxLen xs := by
  intro row hrow
  unfold pad_list at hrow
  rw [List.mem_map] at hrow
  obtain ⟨s, hs, hrow⟩ := hrow
  subst hrow
  rw [List.length_append, List.length_replicate]
  have := le_maxLen hs
  omega

/-- C10.  When token averaging is enabled (its default), the forward call
fails for every batch in which durations is omitted: that argument is
iterated unconditionally under the flag, so despite its None default it is
effectively mandatory. -/
theorem dio_forward_requires_durations (c : Dio) (dioStonemask : List ℚ → List ℚ)
    (lg : ℚ → ℚ) (input : List (List ℚ)) (dl : Option (List ℕ))
    (hflag : c.use_token_averaged_f0 = true) :
    c.forward dioStonemask lg input none dl = none := by
  unfold Dio.forward
  cases mapOrFail (c.calculate_f0 dioStonemask lg) input with
  | none => rfl
  | some pitch => simp [hflag]

theorem dio_forward_requires_durations_witness :
    (DioF0.Dio.make 22050 1024 256 (some 80) (some 400) true true true).use_token_averaged_f0
      = true
    ∧ (DioF0.Dio.make 22050 1024 256 (some 80) (some 400) true true true).forward
        (fun x => x) (fun q => q) [[1]] none none = none :=
  ⟨rfl, dio_forward_requires_durations
    (DioF0.Dio.make 22050 1024 256 (some 80) (some 400) true true true)
    (fun x => x) (fun q => q) [[1]] none rfl⟩

/-- C7.  Batching: for a batch of two or more utterances whose waveform
lengths differ, the forward call right-pads the independently computed
per-utterance sequences with 0.0 to the maximum length in the batch, and
the returned valid-length sequence is the per-utterance frame counts when
token averaging is disabled, or the caller-supplied duration lengths when
it is enabled. -/
theorem dio_forward_batching (c : Dio) (dioStonemask : List ℚ → List ℚ)
    (lg : ℚ → ℚ) (input : List (List ℚ)) (ds : List (List ℕ)) (dl : List ℕ)
    (pitch ps : List (List ℚ))
    (hbatch : 2 ≤ input.length)
    (hdiff : ∃ i j, i < input.length ∧ j < input.length
      ∧ (input.getD i []).length ≠ (input.getD j []).length)
    (hp : mapOrFail (c.calculate_f0 dioStonemask lg) input = some pitch)
    (hav : mapOrFail (fun pd => average_by_duration pd.1 pd.2) (pitch.zip ds)
      = some ps) :
    (c.use_token_averaged_f0 = false →
      c.forward dioStonemask lg input (some ds) (some dl)
          = some (pad_list pitch 0, some (pitch.map List.length))
      ∧ (∀ i, i < pitch.length →
          (pad_list pitch 0).getD i []
            = pitch.getD i []
              ++ List.replicate (maxLen pitch - (pitch.getD i []).length) 0)
      ∧ (∀ row ∈ pad_list pitch 0, row.length = maxLen pitch))
    ∧ (c.use_token_averaged_f0 = true →
      c.forward dioStonemask lg input (some ds) (some dl)
          = some (pad_list ps 0, some dl)
      ∧ (∀ i, i < ps.length →
          (pad_list ps 0).getD i []
            = ps.getD i [] ++ List.replicate (maxLen ps - (ps.getD i []).length) 0)
      ∧ (∀ row ∈ pad_list ps 0, row.length = maxLen ps)) := by
  constructor
  · intro hflag
    refine ⟨?_, fun i hi => pad_list_getD pitch 0 i hi, pad_list_row_length pitch 0⟩
    unfold Dio.forward
    rw [hp]
    simp [hflag]
  · intro hflag
    refine ⟨?_, fun i hi => pad_list_getD ps 0 i hi, pad_list_row_length ps 0⟩
    unfold Dio.forward
    rw [hp]
    simp only [hflag, if_true]
    rw [hav]

theorem dio_forward_batching_witness :
    ((Dio.make 1 0 1 none none false false false).forward (fun x => x) (fun q => q)
        [[1], [1, 2]] (some [[3], [4]]) (some [1, 1])
      = some (pad_list [[1, 0, 0], [1, 2, 0, 0]] 0,
          some ([[1, 0, 0], [1, 2, 0, 0]].map List.length)))
    ∧ ((Dio.make 1 0 1 none none true false false).forward (fun x => x) (fun q => q)
        [[1], [1, 2]] (some [[3], [4]]) (some [1, 1])
      = some (pad_list [[1], [3 / 2]] 0, some [1, 1])) := by
  have hp0 : mapOrFail ((Dio.make 1 0 1 none none false false false).calculate_f0
      (fun x => x) (fun q => q)) [[1], [1, 2]] = some [[1, 0, 0], [1, 2, 0, 0]] := by
    norm_num [mapOrFail, Dio.calculate_f0, Dio.adjust_num_frames, Dio.num_frames,
      samples_to_frames, Dio.make, List.replicate]
  have hp1 : mapOrFail ((Dio.make 1 0 1 none none true false false).calculate_f0
      (fun x => x) (fun q => q)) [[1], [1, 2]] = some [[1, 0, 0], [1, 2, 0, 0]] := by
    norm_num [mapOrFail, Dio.calculate_f0, Dio.adjust_num_frames, Dio.num_frames,
      samples_to_frames, Dio.make, List.replicate]
  have hav : mapOrFail (fun pd => average_by_duration pd.1 pd.2)
      ([[1, 0, 0], [1, 2, 0, 0]].zip [[3], [4]]) = some [[1], [3 / 2]] := by
    norm_num [mapOrFail, average_by_duration, meanNonzero, List.scanl]
  have hdiff : ∃ i j, i < ([[1], [1, 2]] : List (List ℚ)).length
      ∧ j < ([[1], [1, 2]] : List (List ℚ)).length
      ∧ ((([[1], [1, 2]] : List (List ℚ)).getD i []).length
          ≠ (([[1], [1, 2]] : List (List ℚ)).getD j []).length) := by
    exact ⟨0, 1, by norm_num, by norm_num, by norm_num⟩
  exact ⟨((dio_forward_batching (Dio.make 1 0 1 none none false false false)
      (fun x => x) (fun q => q) [[1], [1, 2]] [[3], [4]] [1, 1]
      [[1, 0, 0], [1, 2, 0, 0]] [[1], [3 / 2]] (by norm_num) hdiff hp0 hav).1 rfl).1,
    ((dio_forward_batching (Dio.make 1 0 1 none none true false false)
      (fun x => x) (fun q => q) [[1], [1, 2]] [[3], [4]] [1, 1]
      [[1, 0, 0], [1, 2, 0, 0]] [[1], [3 / 2]] (by norm_num) hdiff hp1 hav).2 rfl).1⟩

/-- C1.  Frame-count correction: for every F0 sequence and every expected
frame count computed by the extractor, if expected is greater than the
sequence's length the result is the sequence right-padded with zeros to
length expected (the original prefix unchanged); if expected is less the
result is the first expected elements; in both cases the output length
equals expected. -/
theorem dio_frame_count_correction (c : Dio) (xLen : ℕ) (f0 : List ℚ) :
    (c.num_frames xLen > f0.length →
      c.adjust_num_frames xLen f0
        = f0 ++ List.replicate (c.num_frames xLen - f0.length) 0)
    ∧ (c.num_frames xLen < f0.length →
      c.adjust_num_frames xLen f0 = f0.take (c.num_frames xLen))
    ∧ (c.adjust_num_frames xLen f0).length = c.num_frames xLen := by
  refine ⟨fun h1 => ?_, fun h2 => ?_, adjust_num_frames_length c xLen f0⟩
  · simp [Dio.adjust_num_frames, h1]
  · have h1 : ¬ c.num_frames xLen > f0.length := by omega
    simp [Dio.adjust_num_frames, h1, h2]

theorem dio_frame_count_correction_witness :
    (DioF0.Dio.make 22050 1024 256 (some 80) (some 400) true true true).adjust_num_frames
        1024 [1, 2] = [1, 2] ++ List.replicate 2 0
    ∧ (DioF0.Dio.make 22050 1024 256 (some 80) (some 400) true true true).adjust_num_frames
        1024 [1, 2, 3, 4, 5, 6] = [1, 2, 3, 4, 5, 6].take 4 := by
  constructor
  · exact (dio_frame_count_correction
      (DioF0.Dio.make 22050 1024 256 (some 80) (some 400) true true true) 1024 [1, 2]).1
      (by decide)
  · exact (dio_frame_count_correction
      (DioF0.Dio.make 22050 1024 256 (some 80) (some 400) true true true) 1024
      [1, 2, 3, 4, 5, 6]).2.1 (by decide)

/-- C2.  The expected frame count used by the frame-count correction equals
the external audio library's frame-counting convention (floor of the
FFT-adjusted sample count over the hop length, plus one) with one more +1
added in this module, i.e. relative to the raw floored quotient the +1 is
applied twice in total. -/
theorem dio_expected_frame_count (c : Dio) (xLen : ℕ) (f0 : List ℚ)
    (hhop : 0 < c.hop_length) :
    c.num_frames xLen = samples_to_frames xLen c.hop_length c.n_fft + 1
    ∧ samples_to_frames xLen c.hop_length c.n_fft
        = (xLen - c.n_fft / 2) / c.hop_length + 1
    ∧ (c.adjust_num_frames xLen f0).length
        = ((xLen - c.n_fft / 2) / c.hop_length + 1) + 1 := by
  refine ⟨rfl, rfl, ?_⟩
  rw [adjust_num_frames_length]
  rfl

theorem dio_expected_frame_count_witness :
    0 < (DioF0.Dio.make 22050 1024 256 (some 80) (some 400) true true true).hop_length
    ∧ ((DioF0.Dio.make 22050 1024 256 (some 80) (some 400) true true true).adjust_num_frames
        1024 [1, 2]).length = ((1024 - 1024 / 2) / 256 + 1) + 1 :=
  ⟨by decide,
   (dio_expected_frame_count
      (DioF0.Dio.make 22050 1024 256 (some 80) (some 400) true true true) 1024 [1, 2]
      (by decide)).2.2⟩

/-- C8.  For every valid (sample_rate, hop_length) pair accepted at
construction, the stored derived attribute frame_period equals exactly
1000 * hop_length / sample_rate (milliseconds). -/
theorem dio_frame_period (fs n_fft hop_length : ℕ) (f0min f0max : Option ℕ)
    (b1 b2 b3 : Bool) (hfs : 0 < fs) :
    (Dio.make fs n_fft hop_length f0min f0max b1 b2 b3).frame_period
      = 1000 * (hop_length : ℚ) / (fs : ℚ)
    ∧ (Dio.make fs n_fft hop_length f0min f0max b1 b2 b3).frame_period * (fs : ℚ)
      = 1000 * (hop_length : ℚ) := by
  refine ⟨rfl, ?_⟩
  have hfs' : (fs : ℚ) ≠ 0 := by
    exact_mod_cast Nat.pos_iff_ne_zero.mp hfs
  show 1000 * (hop_length : ℚ) / (fs : ℚ) * (fs : ℚ) = 1000 * (hop_length : ℚ)
  field_simp

theorem dio_frame_period_witness :
    0 < 22050
    ∧ ((DioF0.Dio.make 22050 1024 256 none none true true true).frame_period
        = 1000 * (256 : ℚ) / (22050 : ℚ)
      ∧ (DioF0.Dio.make 22050 1024 256 none none true true true).frame_period * (22050 : ℚ)
        = 1000 * (256 : ℚ)) :=
  ⟨by decide, dio_frame_period 22050 1024 256 none none true true true (by decide)⟩

/-- C9.  For every successfully constructed extractor, get_parameters always
fails: it reads the attribute n_shift, which the constructor never assigns
(the constructor stores hop_length instead), so the lookup cannot
succeed for any configuration. -/
theorem dio_get_parameters_always_fails (c : Dio) :
    c.get_parameters = none
    ∧ "n_shift" ∈ getParametersReads
    ∧ "n_shift" ∉ dioInitAttrs := by
  refine ⟨?_, by decide, by decide⟩
  unfold Dio.get_parameters
  decide

end DioF0
